import Mathlib

/-!
Shallow embedding of the duplicate-detection and duplicate-resolution
scripts (`duplicate_finder.py` and `duplicate_fixer.py`) of the
dataset-boundary-fixer repository, together with theorems settling the
specification claims about them.

Modelling conventions: the database cursor of the detection scan is the
list of `hex_id` values it yields; a Python dict is an insertion-ordered
association list; numeric attributes (`evi`, geometry areas) are carried
as integers, an order-faithful embedding of the float values the scripts
compare; external pure collaborators (`h3`/`pyproj` geometry functions)
are function parameters.
-/

/-- Python dict lookup `d.get(k)` on an insertion-ordered association
list. -/
def dict_get : List (String × Nat) → String → Option Nat
  | [], _ => none
  | (k0, v0) :: rest, k => if k0 = k then some v0 else dict_get rest k

/-- Python dict assignment `d[k] = v` on an insertion-ordered association
list: an existing key keeps its position, a new key is appended. -/
def dict_set : List (String × Nat) → String → Nat → List (String × Nat)
  | [], k, v => [(k, v)]
  | (k0, v0) :: rest, k, v =>
    if k0 = k then (k0, v) :: rest else (k0, v0) :: dict_set rest k v

/-- Embedding of `get_hex_ids` (duplicate_finder.py, lines 31-50): a
single forward scan over the stream of `hex_id` values, performing
`hex_id_count[hex_id] = hex_id_count.get(hex_id, 0) + 1` per row. -/
def get_hex_ids (ids : List String) : List (String × Nat) :=
  ids.foldl (fun d h => dict_set d h ((dict_get d h).getD 0 + 1)) []

/-- Embedding of `find_duplicates` (duplicate_finder.py, lines 53-68):
keep, in dict order, the `(hex_id, count)` entries with `count > 1`. -/
def find_duplicates : List (String × Nat) → List (String × Nat)
  | [] => []
  | (h, c) :: rest =>
    if 1 < c then (h, c) :: find_duplicates rest else find_duplicates rest

/-- First-occurrence order of the scanned ids (the key order a Python
dict ends up with after the scan); used to state the ordering half of the
duplicate-set claim. -/
def first_occurrences (ids : List String) : List String :=
  ids.foldl (fun acc h => if h ∈ acc then acc else acc ++ [h]) []

/-- Decimal digit character, for the rendering `str` applies to an
integer. -/
def digit_char (d : Nat) : Char := Char.ofNat (48 + d)

/-- Fuelled emission of the decimal digits of `n`, most significant
first, in front of `acc`; any fuel of at least `n` is exact. -/
def nat_to_chars_aux : Nat → Nat → List Char → List Char
  | 0, _, acc => acc
  | fuel + 1, n, acc =>
    if n = 0 then acc
    else nat_to_chars_aux fuel (n / 10) (digit_char (n % 10) :: acc)

/-- Decimal rendering of a natural number, as Python `str` produces it. -/
def nat_to_chars (n : Nat) : List Char :=
  if n = 0 then ['0'] else nat_to_chars_aux n n []

/-- Decimal rendering of an integer, as Python `str` produces it. -/
def int_to_chars (b : Int) : List Char :=
  if b < 0 then '-' :: nat_to_chars (-b).toNat else nat_to_chars b.toNat

/-- Embedding of `write_pairs_csv` (duplicate_finder.py, lines 71-74):
each pair is written as the line `a,b` - raw token, comma, decimal count,
newline, with no quoting or escaping. -/
def write_pairs_csv (items : List (String × Int)) : String :=
  String.mk (items.foldl
    (fun acc p => acc ++ (p.1.data ++ [','] ++ int_to_chars p.2 ++ ['\n'])) [])

/-- Worker for universal-newline translation; the flag records whether
the previous character was a carriage return (whose emitted newline
swallows an immediately following line feed). -/
def univ_newlines_aux : Bool → List Char → List Char
  | _, [] => []
  | prevCR, c :: rest =>
    if c = '\r' then '\n' :: univ_newlines_aux true rest
    else if c = '\n' then
      if prevCR then univ_newlines_aux false rest
      else '\n' :: univ_newlines_aux false rest
    else c :: univ_newlines_aux false rest

/-- Universal-newline translation performed by opening the file in text
mode for reading: `\r\n` and a lone `\r` both become `\n`. -/
def univ_newlines (l : List Char) : List Char :=
  univ_newlines_aux false l

/-- States of the reader of Python's csv module (default dialect): start
of record, start of field, inside an unquoted field, inside a quoted
field, just after a quote inside a quoted field. -/
inductive CsvSt
  | sr
  | sf
  | fld
  | inq
  | qq
deriving DecidableEq

/-- Character-level model of Python's `csv.reader` with the default
dialect (delimiter `,`, quote char `"`, doubled quotes, non-strict),
running on universal-newline-translated content and accumulating the
parsed rows. -/
def csv_run : List Char → CsvSt → List Char → List String → List (List String) → List (List String)
  | [], .sr, _, _, rows => rows
  | [], .sf, _, row, rows => rows ++ [row ++ [""]]
  | [], .fld, f, row, rows => rows ++ [row ++ [String.mk f]]
  | [], .inq, f, row, rows => rows ++ [row ++ [String.mk f]]
  | [], .qq, f, row, rows => rows ++ [row ++ [String.mk f]]
  | c :: cs, .sr, _, _, rows =>
    if c = '\n' then csv_run cs .sr [] [] (rows ++ [[]])
    else if c = '"' then csv_run cs .inq [] [] rows
    else if c = ',' then csv_run cs .sf [] [""] rows
    else csv_run cs .fld [c] [] rows
  | c :: cs, .sf, _, row, rows =>
    if c = '\n' then csv_run cs .sr [] [] (rows ++ [row ++ [""]])
    else if c = '"' then csv_run cs .inq [] row rows
    else if c = ',' then csv_run cs .sf [] (row ++ [""]) rows
    else csv_run cs .fld [c] row rows
  | c :: cs, .fld, f, row, rows =>
    if c = '\n' then csv_run cs .sr [] [] (rows ++ [row ++ [String.mk f]])
    else if c = ',' then csv_run cs .sf [] (row ++ [String.mk f]) rows
    else csv_run cs .fld (f ++ [c]) row rows
  | c :: cs, .inq, f, row, rows =>
    if c = '"' then csv_run cs .qq f row rows
    else csv_run cs .inq (f ++ [c]) row rows
  | c :: cs, .qq, f, row, rows =>
    if c = '"' then csv_run cs .inq (f ++ ['"']) row rows
    else if c = ',' then csv_run cs .sf [] (row ++ [String.mk f]) rows
    else if c = '\n' then csv_run cs .sr [] [] (rows ++ [row ++ [String.mk f]])
    else csv_run cs .fld (f ++ [c]) row rows

/-- True iff `c` is an ASCII decimal digit. -/
def is_digit_char (c : Char) : Bool := 48 ≤ c.toNat && c.toNat ≤ 57

/-- Value of a nonempty all-digit character list, most significant digit
first. -/
def digits_val (ds : List Char) : Option Nat :=
  if ds = [] then none
  else if ds.all is_digit_char then
    some (ds.foldl (fun a c => a * 10 + (c.toNat - 48)) 0)
  else none

/-- Model of Python `int(s)` on an optionally signed decimal string (the
shapes relevant to this artifact); any other content raises, modelled as
`none`. -/
def py_int (s : String) : Option Int :=
  match s.data with
  | [] => none
  | c :: ds =>
    if c = '-' then (digits_val ds).map (fun n => -(n : Int))
    else if c = '+' then (digits_val ds).map (fun n => (n : Int))
    else (digits_val (c :: ds)).map (fun n => (n : Int))

/-- One parsed csv row to a `(hex_id, count)` pair: `a = row[0]`,
`b = int(row[1])`; a row without two fields raises, modelled as `none`. -/
def row_to_pair : List String → Option (String × Int)
  | a :: b :: _ => (py_int b).map (fun n => (a, n))
  | _ => none

/-- The reading loop of `read_pairs_csv`: the first failing row aborts
the whole read (the exception propagates to the caller). -/
def rows_to_pairs : List (List String) → Option (List (String × Int))
  | [] => some []
  | r :: rs =>
    match row_to_pair r with
    | none => none
    | some p => (rows_to_pairs rs).map (fun t => p :: t)

/-- Embedding of `read_pairs_csv` (duplicate_finder.py, lines 77-86):
csv-parse the file content with `csv.reader` and turn each row into
`(row[0], int(row[1]))`. -/
def read_pairs_csv (content : String) : Option (List (String × Int)) :=
  rows_to_pairs (csv_run (univ_newlines content.data) .sr [] [] [])

/-- The single-quote character, named by code point so the query text in
the theorems below stays readable. -/
def squote : Char := Char.ofNat 39

/-- Single quote as a one-character string. -/
def squoteS : String := String.mk [squote]

/-- Embedding of the IN-clause body built at duplicate_finder.py line
101: the raw ids of the batch joined into literal query text with a
single quote on each side and quote-comma-quote between items. -/
def batch_ids_literal (batch : List String) : String :=
  squoteS ++ String.intercalate (squoteS ++ "," ++ squoteS) batch ++ squoteS

/-- Embedding of the query string built at duplicate_finder.py line 102. -/
def build_query (batch : List String) : String :=
  "SELECT * FROM national_dataset WHERE hex_id IN (" ++ batch_ids_literal batch ++ ")"

/-- Read the body of one single-quoted literal (no escape mechanism, as
`batch_ids_literal` emits none); returns the content and the remaining
input after the closing quote. -/
def quoted_content : List Char → Option (List Char × List Char)
  | [] => none
  | c :: rest =>
    if c = squote then some ([], rest)
    else (quoted_content rest).map (fun p => (c :: p.1, p.2))

/-- Read one quoted literal from the head of the input. -/
def parse_quoted_item (cs : List Char) : Option (List Char × List Char) :=
  match cs with
  | [] => none
  | c :: rest => if c = squote then quoted_content rest else none

/-- Fuelled reading of a comma-separated list of single-quoted literals -
the only shape under which the executed IN-clause treats every id as one
opaque literal. -/
def parse_in_list_aux : Nat → List Char → Option (List String)
  | 0, _ => none
  | fuel + 1, cs =>
    match parse_quoted_item cs with
    | none => none
    | some (tok, rest) =>
      match rest with
      | [] => some [String.mk tok]
      | c :: more =>
        if c = ',' then
          (parse_in_list_aux fuel more).map (fun l => String.mk tok :: l)
        else none

/-- Whether an IN-clause body is a well-formed comma-separated list of
single-quoted literals, and if so which id values the data source sees. -/
def parse_in_list (cs : List Char) : Option (List String) :=
  parse_in_list_aux (cs.length + 1) cs

/-- One stored table row: its `hex_id` plus a tag standing for all the
other columns of the record. -/
structure DBRow where
  hex_id : String
  payload : Nat
deriving DecidableEq

/-- The queried table: the stable column-name list reported by
`cursor.description` and the stored rows in table order. -/
structure DB where
  colnames : List String
  rows : List DBRow
deriving DecidableEq

/-- IN-membership of the data source applied to a list of already-decoded
literal values: the table rows whose `hex_id` is one of those values, in
table order.  This is only the final step of query execution - which
values the data source decodes is decided by parsing the concatenated
query text, see `run_query`. -/
def select_rows (db : DB) (literals : List String) : List DBRow :=
  db.rows.filter (fun r => decide (r.hex_id ∈ literals))

/-- Embedding of `itertools.batched`: split a list into consecutive
chunks of size `n`, the last possibly shorter.  `itertools.batched`
rejects `n < 1`; the claims below are stated for positive `n` only. -/
def batchedList (n : Nat) : List α → List (List α)
  | [] => []
  | x :: xs =>
    if n = 0 then []
    else (x :: xs.take (n - 1)) :: batchedList n (xs.drop (n - 1))
termination_by l => l.length
decreasing_by simp [List.length_drop]; omega

/-- Execution of the query text built for one batch (duplicate_finder.py
lines 101-104).  The code concatenates the raw ids into the query string,
so what the data source receives is `batch_ids_literal batch`: it reads
that IN-clause body back as a comma-separated list of single-quoted
literals and selects by membership in the literals it decoded - which
differ from the batch ids whenever an id carries a quote.  Query text
whose IN-clause body does not parse is a syntax error, modelled as
`none` (the raised error aborts the fetch). -/
def run_query (db : DB) (batch : List String) : Option (List DBRow) :=
  (parse_in_list (batch_ids_literal batch).data).map (select_rows db)

/-- The fetch loop of `get_rows_by_hex_id` over the prepared batches: per
batch, build and execute the concatenated query (a failing execution
aborts the whole fetch), capture the column names after the first
executed query if not already captured, and append the fetched
records. -/
def fetch_batches (db : DB) :
    List (List String) → Option (List String) → List DBRow →
      Option (Option (List String) × List DBRow)
  | [], colnames, rows => some (colnames, rows)
  | batch :: more, colnames, rows =>
    match run_query db batch with
    | none => none
    | some fetched =>
      fetch_batches db more
        (match colnames with
          | none => some db.colnames
          | some c => some c)
        (rows ++ fetched)

/-- Embedding of `get_rows_by_hex_id` (duplicate_finder.py, lines
89-118): split the ids into batches and, per batch, build the query by
string-joining the raw ids (line 101), execute it, capture the column
names from the first executed batch and concatenate the fetched rows;
`none` is the uncaught error of a batch whose concatenated query text is
malformed. -/
def get_rows_by_hex_id (db : DB) (hex_ids : List String) (batchSize : Nat) :
    Option (Option (List String) × List DBRow) :=
  fetch_batches db (batchedList batchSize hex_ids) none []

/-- A two-row table whose ids are the pieces an injected id decomposes
into; used by the batched-fetch counterexample. -/
def inj_db : DB :=
  { colnames := ["hex_id", "geom"], rows := [⟨"a", 1⟩, ⟨"b", 2⟩] }

/-- The id `a','b`: an admissible member of a duplicate-id list (the
claim restricts id content in no way), but once string-joined into the
IN-clause it denotes the two literals `a` and `b` instead of itself. -/
def tricky_id : String := String.mk ('a' :: squote :: ',' :: squote :: ['b'])

/-- A stored geometry, modelled by the only datum the resolution code
reads from it - its area - plus a tag keeping distinct geometries with
equal areas distinguishable. -/
structure Geom where
  area : Int
  gid : Nat
deriving DecidableEq

/-- One member of a duplicate group, as `deduplicate` reads it: its
`hex_id`, its optional quality attribute `evi`, a tag standing for all
remaining non-geometry attributes, and its stored geometry. -/
structure Row where
  hex_id : String
  evi : Option Int
  attrs : Nat
  geometry : Geom
deriving DecidableEq

/-- Python truthiness of the `evi` attribute as used by
`if not other.evi:` - null and the number zero are falsy, every other
number is truthy. -/
def py_truthy : Option Int → Bool
  | none => false
  | some v => decide (v ≠ 0)

/-- The scanning loop of `deduplicate` (duplicate_fixer.py, lines 80-90):
walk the enumerated members; members with falsy `evi` are skipped and a
`(hex_id, idx)` notification is logged; any other member replaces the
candidate exactly when its stored area is strictly greater than the
current best. -/
def dedupScan (hex : String) :
    List (Nat × Row) → Row → Int → Row × List (String × Nat)
  | [], best, _ => (best, [])
  | (idx, other) :: rest, best, bestArea =>
    if py_truthy other.evi then
      if bestArea < other.geometry.area then
        dedupScan hex rest other other.geometry.area
      else
        dedupScan hex rest best bestArea
    else
      let r := dedupScan hex rest best bestArea
      (r.1, (hex, idx) :: r.2)

/-- Embedding of `deduplicate` (duplicate_fixer.py, lines 68-96).  The
two external pure functions it calls are parameters: `cell_to_shapely`
maps a hex id to its boundary polygon and `project` reprojects a
geometry.  The result is the resolved row together with the emitted
null-`evi` notifications; an empty group (never produced by the caller's
groupby) is `none`, as `rows.iloc[0]` would raise. -/
def deduplicate (cell_to_shapely : String → Geom) (project : Geom → Geom) :
    List Row → Option (Row × List (String × Nat))
  | [] => none
  | [r] => some (r, [])
  | r0 :: r1 :: rest =>
    let hex := r0.hex_id
    let hexGeom := project (cell_to_shapely hex)
    let scanned := dedupScan hex ((r0 :: r1 :: rest).enum) r0 r0.geometry.area
    some ({ scanned.1 with geometry := hexGeom }, scanned.2)

/-- The candidate-selection recurrence of the scan viewed as a fold over
the members alone (notifications dropped); used to state and prove the
first-max-wins selection property. -/
def scan_fold (best : Row) : List Row → Row
  | [] => best
  | m :: rest =>
    if py_truthy m.evi ∧ best.geometry.area < m.geometry.area then
      scan_fold m rest
    else
      scan_fold best rest

/-- A concrete stand-in for `cell_to_shapely` for concrete evaluations:
every hex id maps to a cell boundary polygon distinct from any stored
member geometry used in the scenarios. -/
def cell_poly : String → Geom :=
  fun h => { area := (h.length : Int) + 1, gid := 1000 + h.length }

/-- A concrete stand-in for the `transform(project, c)` reprojection. -/
def bng_project : Geom → Geom :=
  fun g => { area := g.area + 1, gid := g.gid + 1 }

/-- A concrete table used in the concrete-input theorems: two duplicated
hex ids and one singleton. -/
def db0 : DB :=
  { colnames := ["hex_id", "evi", "geom"],
    rows := [⟨"A", 1⟩, ⟨"B", 2⟩, ⟨"A", 3⟩, ⟨"C", 4⟩, ⟨"C", 5⟩] }

/-- An id containing a single quote, the metacharacter of the query's
string-literal syntax. -/
def inj_id : String := String.mk ['a', squote, 'b']

/-- A singleton duplicate group member used in concrete evaluations. -/
def r_single : Row :=
  { hex_id := "H", evi := some 3, attrs := 7, geometry := { area := 5, gid := 1 } }

/-- First member of the group refuting the null-skip claim: truthy `evi`,
small area. -/
def c3row1 : Row :=
  { hex_id := "H", evi := some 1, attrs := 1, geometry := { area := 10, gid := 1 } }

/-- Second member of the group refuting the null-skip claim: `evi` is the
number zero - non-null but falsy - with the strictly largest area. -/
def c3row2 : Row :=
  { hex_id := "H", evi := some 0, attrs := 2, geometry := { area := 50, gid := 2 } }

/-- Scenario-C member 1: null `evi`, larger area. -/
def c6row1 : Row :=
  { hex_id := "C", evi := none, attrs := 1, geometry := { area := 50, gid := 1 } }

/-- Scenario-C member 2: `evi` present (0.7, carried as 7), smaller
area. -/
def c6row2 : Row :=
  { hex_id := "C", evi := some 7, attrs := 2, geometry := { area := 30, gid := 2 } }

/-- Scenario-D member 1 (`evi` 0.2 carried as 2, area 10). -/
def d1 : Row :=
  { hex_id := "D", evi := some 2, attrs := 1, geometry := { area := 10, gid := 1 } }

/-- Scenario-D member 2 (`evi` 0.5 carried as 5, area 40). -/
def d2 : Row :=
  { hex_id := "D", evi := some 5, attrs := 2, geometry := { area := 40, gid := 2 } }

/-- Scenario-D member 3 (`evi` 0.5 carried as 5, area 40). -/
def d3 : Row :=
  { hex_id := "D", evi := some 5, attrs := 3, geometry := { area := 40, gid := 3 } }

/-- First member of the group refuting the first-max-among-non-null
claim: truthy `evi`, small area. -/
def e1 : Row :=
  { hex_id := "E", evi := some 1, attrs := 1, geometry := { area := 10, gid := 1 } }

/-- Second member of that group: `evi` zero (non-null, falsy) and the
strictly largest area. -/
def e2 : Row :=
  { hex_id := "E", evi := some 0, attrs := 2, geometry := { area := 40, gid := 2 } }

/-- The tokens for which the persisted-artifact round trip is exact, as
the counterexample forces the claim to be narrowed: no delimiter, no
record-terminator characters, and not starting with the reader's quote
character. -/
def good_tok (t : String) : Prop :=
  (∀ c ∈ t.data, c ≠ ',' ∧ c ≠ '\n' ∧ c ≠ '\r') ∧ t.data.head? ≠ some '"'

instance (t : String) : Decidable (good_tok t) := by
  unfold good_tok
  infer_instance

/-- Concrete entries exercising the round trip: a plain token, the empty
token, and multi-digit counts. -/
def c2_entries : List (String × Int) := [("abc", 3), ("", 1), ("x", 12)]

/-- A token wrapped in double quotes: comma-free, but starting with the
csv reader's quote character. -/
def c2_bad_tok : String := String.mk ['"', 'x', '"']

theorem dict_get_set_self (d : List (String × Nat)) (k : String) (v : Nat) :
    dict_get (dict_set d k v) k = some v := by
  induction d with
  | nil => simp [dict_set, dict_get]
  | cons p rest ih =>
    obtain ⟨k0, v0⟩ := p
    by_cases h : k0 = k
    · simp [dict_set, dict_get, h]
    · simp [dict_set, dict_get, h, ih]

theorem dict_get_set_other (d : List (String × Nat)) (k k' : String) (v : Nat)
    (h : k' ≠ k) : dict_get (dict_set d k v) k' = dict_get d k' := by
  have h2 : ¬k = k' := fun hh => h hh.symm
  induction d with
  | nil => simp [dict_set, dict_get, h2]
  | cons p rest ih =>
    obtain ⟨k0, v0⟩ := p
    by_cases h0 : k0 = k
    · subst h0
      simp [dict_set, dict_get, h2]
    · simp [dict_set, dict_get, h0, ih]

theorem sum_dict_bump (d : List (String × Nat)) (k : String) :
    ((dict_set d k ((dict_get d k).getD 0 + 1)).map Prod.snd).sum
      = (d.map Prod.snd).sum + 1 := by
  induction d with
  | nil => simp [dict_set, dict_get]
  | cons p rest ih =>
    obtain ⟨k0, v0⟩ := p
    by_cases h : k0 = k
    · subst h
      simp [dict_set, dict_get]
      omega
    · simp only [dict_get, dict_set, h, if_false, if_neg h, List.map_cons,
        List.sum_cons]
      rw [ih]
      omega

theorem sum_fold_scan (ids : List String) :
    ∀ d : List (String × Nat),
      (((ids.foldl (fun d h => dict_set d h ((dict_get d h).getD 0 + 1)) d).map
          Prod.snd).sum)
        = (d.map Prod.snd).sum + ids.length := by
  induction ids with
  | nil => intro d; simp
  | cons i ids ih =>
    intro d
    simp only [List.foldl_cons]
    rw [ih, sum_dict_bump]
    simp
    omega

theorem get_fold_scan (ids : List String) :
    ∀ (d : List (String × Nat)) (h : String),
      dict_get (ids.foldl (fun d x => dict_set d x ((dict_get d x).getD 0 + 1)) d) h
        = if h ∈ ids ∨ (dict_get d h).isSome
          then some ((dict_get d h).getD 0 + ids.count h)
          else none := by
  induction ids with
  | nil =>
    intro d h
    cases hd : dict_get d h <;> simp [hd]
  | cons i ids ih =>
    intro d h
    simp only [List.foldl_cons]
    rw [ih]
    by_cases hhi : h = i
    · subst hhi
      rw [dict_get_set_self]
      simp [List.count_cons]
      omega
    · rw [dict_get_set_other _ _ _ _ hhi]
      have hcnt : (i :: ids).count h = ids.count h := by
        simp [List.count_cons, hhi]
      rw [hcnt]
      simp [List.mem_cons, hhi]

theorem find_duplicates_eq_filter (m : List (String × Nat)) :
    find_duplicates m = m.filter (fun p => decide (1 < p.2)) := by
  induction m with
  | nil => rfl
  | cons p rest ih =>
    obtain ⟨k, v⟩ := p
    by_cases hv : 1 < v <;> simp [find_duplicates, hv, ih, List.filter_cons]

theorem map_fst_dict_set (d : List (String × Nat)) (k : String) (v : Nat) :
    (dict_set d k v).map Prod.fst
      = if k ∈ d.map Prod.fst then d.map Prod.fst else d.map Prod.fst ++ [k] := by
  induction d with
  | nil => simp [dict_set]
  | cons p rest ih =>
    obtain ⟨k0, v0⟩ := p
    by_cases h : k0 = k
    · subst h
      simp [dict_set]
    · have h2 : ¬k = k0 := fun hh => h hh.symm
      by_cases hk : k ∈ rest.map Prod.fst
      · simp [dict_set, h, ih, hk, h2]
      · simp [dict_set, h, ih, hk, h2]

theorem keys_fold_scan (ids : List String) :
    ∀ d : List (String × Nat),
      ((ids.foldl (fun d h => dict_set d h ((dict_get d h).getD 0 + 1)) d).map
          Prod.fst)
        = ids.foldl (fun acc h => if h ∈ acc then acc else acc ++ [h])
            (d.map Prod.fst) := by
  induction ids with
  | nil => intro d; rfl
  | cons i ids ih =>
    intro d
    simp only [List.foldl_cons]
    rw [ih, map_fst_dict_set]

/-- C9: over any scanned sequence of hex ids, the streaming aggregation's
counts sum to the number of scanned rows, and each id's recorded count is
exactly its number of occurrences (ids never scanned are absent). -/
theorem c9_idcount_invariant (ids : List String) :
    (((get_hex_ids ids).map Prod.snd).sum = ids.length) ∧
    (∀ h : String,
        dict_get (get_hex_ids ids) h
          = if h ∈ ids then some (ids.count h) else none) := by
  constructor
  · simpa [get_hex_ids] using sum_fold_scan ids []
  · intro h
    have := get_fold_scan ids [] h
    simpa [get_hex_ids, dict_get] using this

/-- C8: an entry is in the duplicate set iff it is a scanned entry with
count above one; the duplicate set is a sublist of the id-count mapping,
whose key order is the first-occurrence order of the scan; and the
concrete scenario of the claim evaluates as stated. -/
theorem c8_duplicate_set :
    (∀ (m : List (String × Nat)) (h : String) (c : Nat),
        (h, c) ∈ find_duplicates m ↔ ((h, c) ∈ m ∧ 1 < c)) ∧
    (∀ m : List (String × Nat), List.Sublist (find_duplicates m) m) ∧
    (∀ ids : List String,
        (get_hex_ids ids).map Prod.fst = first_occurrences ids) ∧
    get_hex_ids ["A", "A", "B", "A", "C", "C"]
      = [("A", 3), ("B", 1), ("C", 2)] ∧
    find_duplicates (get_hex_ids ["A", "A", "B", "A", "C", "C"])
      = [("A", 3), ("C", 2)] := by
  refine ⟨?_, ?_, ?_, ?_, ?_⟩
  · intro m h c
    rw [find_duplicates_eq_filter]
    simp
  · intro m
    rw [find_duplicates_eq_filter]
    exact List.filter_sublist m
  · intro ids
    simpa [get_hex_ids, first_occurrences] using keys_fold_scan ids []
  · decide
  · decide

/-- C10: called with an empty id list, the batched fetch builds no batch
(hence executes no query, and cannot fail) and returns the pair
`(None, [])`. -/
theorem c10_empty_fetch (db : DB) (n : Nat) (hn : 0 < n) :
    get_rows_by_hex_id db [] n = some (none, []) ∧
    batchedList n ([] : List String) = [] := by
  constructor
  · simp [get_rows_by_hex_id, batchedList, fetch_batches]
  · simp [batchedList]

/-- Concrete instance of the empty-id-list claim at the script's fetch
batch size. -/
theorem c10_empty_fetch_witness :
    0 < 10000 ∧
    (get_rows_by_hex_id db0 [] 10000 = some (none, []) ∧
      batchedList 10000 ([] : List String) = []) :=
  ⟨by decide, c10_empty_fetch db0 10000 (by decide)⟩

/-- C1: the fetch builds its query by joining the raw id values into the
query text.  For the id `a'b` the produced query embeds the quote
unescaped, and the IN-clause body no longer reads back as a well-formed
list of quoted literals - the id's content has altered the query's
syntax - while quote-free ids do read back as themselves. -/
theorem c1_query_concatenation :
    build_query [inj_id]
      = "SELECT * FROM national_dataset WHERE hex_id IN ("
          ++ squoteS ++ "a" ++ squoteS ++ "b" ++ squoteS ++ ")" ∧
    parse_in_list (batch_ids_literal [inj_id]).data = none ∧
    parse_in_list (batch_ids_literal ["ab", "cd"]).data = some ["ab", "cd"] := by
  refine ⟨?_, ?_, ?_⟩ <;> decide

theorem batchedList_cons (n : Nat) (x : α) (xs : List α) (hn : 0 < n) :
    batchedList n (x :: xs)
      = (x :: xs.take (n - 1)) :: batchedList n (xs.drop (n - 1)) := by
  have hne : ¬n = 0 := Nat.pos_iff_ne_zero.mp hn
  simp [batchedList, hne]

theorem batched_flatten_fuel (n : Nat) (hn : 0 < n) :
    ∀ (k : Nat) (l : List α), l.length ≤ k → (batchedList n l).flatten = l := by
  intro k
  induction k with
  | zero =>
    intro l hl
    have : l = [] := List.eq_nil_of_length_eq_zero (Nat.le_zero.mp hl)
    subst this
    simp [batchedList]
  | succ k ih =>
    intro l hl
    cases l with
    | nil => simp [batchedList]
    | cons x xs =>
      rw [batchedList_cons n x xs hn]
      have hlen : (xs.drop (n - 1)).length ≤ k := by
        simp only [List.length_drop]
        simp only [List.length_cons] at hl
        omega
      simp only [List.flatten_cons, ih (xs.drop (n - 1)) hlen]
      simp [List.take_append_drop]

theorem batched_flatten (n : Nat) (hn : 0 < n) (l : List α) :
    (batchedList n l).flatten = l :=
  batched_flatten_fuel n hn l.length l le_rfl

theorem filter_append_perm_or (p q : DBRow → Bool) (l : List DBRow)
    (hpq : ∀ x, ¬(p x = true ∧ q x = true)) :
    (l.filter p ++ l.filter q).Perm (l.filter (fun x => p x || q x)) := by
  induction l with
  | nil => simp
  | cons x xs ih =>
    by_cases hp : p x = true
    · have hq : ¬q x = true := fun h => hpq x ⟨hp, h⟩
      simp only [List.filter_cons, hp, if_true, hq, if_false, Bool.or_eq_true,
        hp, true_or, List.cons_append]
      simpa using ih.cons x
    · by_cases hq : q x = true
      · simp only [List.filter_cons, hp, if_false, hq, if_true, Bool.or_eq_true,
          false_or]
        refine List.perm_middle.trans ?_
        simpa using ih.cons x
      · simp only [List.filter_cons, hp, hq, if_false, Bool.or_eq_true]
        simpa [hp, hq] using ih

theorem batched_select_perm_fuel (db : DB) (n : Nat) (hn : 0 < n) :
    ∀ (k : Nat) (ids : List String), ids.length ≤ k → ids.Nodup →
      (((batchedList n ids).map (select_rows db)).flatten).Perm
        (db.rows.filter (fun r => decide (r.hex_id ∈ ids))) := by
  intro k
  induction k with
  | zero =>
    intro ids hl _
    have : ids = [] := List.eq_nil_of_length_eq_zero (Nat.le_zero.mp hl)
    subst this
    simp [batchedList]
  | succ k ih =>
    intro ids hl hnd
    cases ids with
    | nil => simp [batchedList]
    | cons x xs =>
      rw [batchedList_cons n x xs hn]
      have hsplit : (x :: xs.take (n - 1)) ++ xs.drop (n - 1) = x :: xs := by
        simp [List.take_append_drop]
      have hlen : (xs.drop (n - 1)).length ≤ k := by
        simp only [List.length_drop]
        simp only [List.length_cons] at hl
        omega
      have hnd2 : (xs.drop (n - 1)).Nodup :=
        (List.drop_sublist (n - 1) xs).nodup (List.Nodup.of_cons hnd)
      have hdisj : (x :: xs.take (n - 1)).Disjoint (xs.drop (n - 1)) := by
        have := hnd
        rw [← hsplit, List.nodup_append] at this
        exact this.2.2
      simp only [List.map_cons, List.flatten_cons]
      have hperm1 := ih (xs.drop (n - 1)) hlen hnd2
      refine ((hperm1.append_left (select_rows db (x :: xs.take (n - 1))))).trans ?_
      have hperm2 := filter_append_perm_or
        (fun r => decide (r.hex_id ∈ x :: xs.take (n - 1)))
        (fun r => decide (r.hex_id ∈ xs.drop (n - 1)))
        db.rows
        (by
          intro r hr
          simp only [decide_eq_true_eq] at hr
          exact hdisj hr.1 hr.2)
      refine (hperm2).trans ?_
      have heq : db.rows.filter
            (fun r => decide (r.hex_id ∈ x :: xs.take (n - 1))
              || decide (r.hex_id ∈ xs.drop (n - 1)))
          = db.rows.filter (fun r => decide (r.hex_id ∈ x :: xs)) := by
        refine List.filter_congr ?_
        intro r _
        rw [← Bool.decide_or]
        apply decide_eq_decide.mpr
        rw [← hsplit, List.mem_append]
      show (db.rows.filter
          (fun r => decide (r.hex_id ∈ x :: xs.take (n - 1))
            || decide (r.hex_id ∈ xs.drop (n - 1)))).Perm _
      rw [heq]

theorem intercalate_go_data (sep : String) :
    ∀ (as : List String) (acc : String),
      (String.intercalate.go acc sep as).data
        = acc.data ++ as.flatMap (fun x => sep.data ++ x.data) := by
  intro as
  induction as with
  | nil => intro acc; simp [String.intercalate.go]
  | cons a as ih =>
    intro acc
    rw [String.intercalate.go, ih]
    simp [List.append_assoc]

theorem intercalate_data (sep a : String) (as : List String) :
    (String.intercalate sep (a :: as)).data
      = a.data ++ as.flatMap (fun x => sep.data ++ x.data) := by
  rw [String.intercalate, intercalate_go_data]

theorem batch_ids_literal_data (s : String) (rest : List String) :
    (batch_ids_literal (s :: rest)).data
      = squote :: (s.data
          ++ (rest.flatMap (fun x => squote :: ',' :: squote :: x.data)
            ++ [squote])) := by
  simp only [batch_ids_literal, String.data_append, intercalate_data]
  show [squote] ++ _ ++ [squote] = _
  simp [List.append_assoc]
  rfl

theorem quoted_content_free :
    ∀ (content tail : List Char), squote ∉ content →
      quoted_content (content ++ squote :: tail) = some (content, tail) := by
  intro content
  induction content with
  | nil => intro tail _; simp [quoted_content]
  | cons c cc ih =>
    intro tail h
    have hc : c ≠ squote := fun hcontr => h (hcontr ▸ List.mem_cons_self ..)
    simp only [List.cons_append, quoted_content, if_neg hc, List.append_eq]
    rw [ih tail (fun hx => h (List.mem_cons_of_mem _ hx))]
    rfl

theorem parse_aux_batch :
    ∀ (batch : List String) (fuel : Nat), batch ≠ [] →
      (∀ s ∈ batch, squote ∉ s.data) → batch.length ≤ fuel →
      parse_in_list_aux fuel (batch_ids_literal batch).data = some batch := by
  intro batch
  induction batch with
  | nil => intro fuel h; exact absurd rfl h
  | cons s rest ih =>
    intro fuel _ hq hlen
    obtain ⟨f, rfl⟩ : ∃ f, fuel = f + 1 := by
      cases fuel with
      | zero => simp at hlen
      | succ f => exact ⟨f, rfl⟩
    have hsq : squote ∉ s.data := hq s (List.mem_cons_self ..)
    rw [batch_ids_literal_data]
    cases rest with
    | nil =>
      simp only [List.flatMap_nil, List.nil_append]
      have hq1 : parse_quoted_item (squote :: (s.data ++ [squote]))
          = some (s.data, []) := by
        show (if squote = squote
          then quoted_content (s.data ++ [squote]) else none) = _
        rw [if_pos rfl]
        exact quoted_content_free s.data [] hsq
      show (match parse_quoted_item (squote :: (s.data ++ [squote])) with
        | none => none
        | some (tok, rest) =>
          match rest with
          | [] => some [String.mk tok]
          | c :: more =>
            if c = ',' then
              (parse_in_list_aux f more).map (fun l => String.mk tok :: l)
            else none) = some [s]
      rw [hq1]
    | cons r rs =>
      have hshape : s.data
            ++ (((r :: rs).flatMap (fun x => squote :: ',' :: squote :: x.data))
              ++ [squote])
          = s.data ++ squote :: ',' :: (batch_ids_literal (r :: rs)).data := by
        rw [batch_ids_literal_data]
        simp [List.append_assoc]
      rw [hshape]
      have hq1 : parse_quoted_item
          (squote :: (s.data ++ squote :: ',' :: (batch_ids_literal (r :: rs)).data))
          = some (s.data, ',' :: (batch_ids_literal (r :: rs)).data) := by
        show (if squote = squote
          then quoted_content
            (s.data ++ squote :: ',' :: (batch_ids_literal (r :: rs)).data)
          else none) = _
        rw [if_pos rfl]
        exact quoted_content_free s.data _ hsq
      show (match parse_quoted_item
            (squote :: (s.data ++ squote :: ',' :: (batch_ids_literal (r :: rs)).data)) with
        | none => none
        | some (tok, rest) =>
          match rest with
          | [] => some [String.mk tok]
          | c :: more =>
            if c = ',' then
              (parse_in_list_aux f more).map (fun l => String.mk tok :: l)
            else none) = some (s :: r :: rs)
      rw [hq1]
      have hih : parse_in_list_aux f (batch_ids_literal (r :: rs)).data
          = some (r :: rs) := by
        refine ih f (by simp) (fun x hx => hq x (List.mem_cons_of_mem _ hx)) ?_
        simp only [List.length_cons] at hlen ⊢
        omega
      show (if (',' : Char) = ','
        then (parse_in_list_aux f (batch_ids_literal (r :: rs)).data).map
          (fun l => String.mk s.data :: l)
        else none) = some (s :: r :: rs)
      rw [if_pos rfl, hih]
      rfl

theorem flatMap_quoted_length (rest : List String) :
    rest.length
      ≤ (rest.flatMap (fun x => squote :: ',' :: squote :: x.data)).length := by
  induction rest with
  | nil => simp
  | cons r rs ihr =>
    simp only [List.flatMap_cons, List.length_append, List.length_cons]
    omega

theorem parse_batch_free (batch : List String) (h1 : batch ≠ [])
    (h2 : ∀ s ∈ batch, squote ∉ s.data) :
    parse_in_list (batch_ids_literal batch).data = some batch := by
  rw [parse_in_list]
  refine parse_aux_batch batch _ h1 h2 ?_
  refine le_trans ?_ (Nat.le_succ _)
  cases batch with
  | nil => simp
  | cons s rest =>
    rw [batch_ids_literal_data]
    have hrest := flatMap_quoted_length rest
    simp only [List.length_cons, List.length_append]
    omega

theorem run_query_quote_free (db : DB) (batch : List String)
    (h1 : batch ≠ []) (h2 : ∀ s ∈ batch, squote ∉ s.data) :
    run_query db batch = some (select_rows db batch) := by
  rw [run_query, parse_batch_free batch h1 h2]
  rfl

theorem fetch_batches_ok (db : DB) :
    ∀ (bs : List (List String)) (rowsacc : List DBRow) (c : List String),
      (∀ b ∈ bs, run_query db b = some (select_rows db b)) →
      fetch_batches db bs (some c) rowsacc
        = some (some c, rowsacc ++ (bs.map (select_rows db)).flatten) := by
  intro bs
  induction bs with
  | nil => intro rowsacc c _; simp [fetch_batches]
  | cons b bs ih =>
    intro rowsacc c h
    have hb := h b (List.mem_cons_self ..)
    simp only [fetch_batches, hb]
    rw [ih (rowsacc ++ select_rows db b) c
      (fun x hx => h x (List.mem_cons_of_mem _ hx))]
    simp [List.append_assoc]

theorem batchedList_mem_ne_nil (n : Nat) (hn : 0 < n) :
    ∀ (k : Nat) (l : List α), l.length ≤ k →
      ∀ b ∈ batchedList n l, b ≠ [] := by
  intro k
  induction k with
  | zero =>
    intro l hl b hb
    have : l = [] := List.eq_nil_of_length_eq_zero (Nat.le_zero.mp hl)
    subst this
    simp [batchedList] at hb
  | succ k ih =>
    intro l hl b hb
    cases l with
    | nil => simp [batchedList] at hb
    | cons x xs =>
      rw [batchedList_cons n x xs hn] at hb
      rcases List.mem_cons.mp hb with hb | hb
      · subst hb
        simp
      · refine ih (xs.drop (n - 1)) ?_ b hb
        simp only [List.length_drop]
        simp only [List.length_cons] at hl
        omega

theorem batchedList_mem_subset (n : Nat) (hn : 0 < n) (l : List α)
    (b : List α) (hb : b ∈ batchedList n l) : ∀ x ∈ b, x ∈ l := by
  intro x hx
  have hfl : x ∈ (batchedList n l).flatten :=
    List.mem_flatten.mpr ⟨b, hb, hx⟩
  rw [batched_flatten n hn] at hfl
  exact hfl

/-- C7 (amended): for a nonempty list of distinct ids none of which
contains a single-quote character, and any positive batch size, every
batch's concatenated query text parses back to exactly its batch of ids,
so the fetch succeeds, captures the table's column names from the first
batch, and returns - up to the inter-batch concatenation order - exactly
the table rows whose `hex_id` is in the requested list, no omission and
no duplication, independently of the chosen batch size. -/
theorem c7_batched_fetch_quote_free (db : DB) (hex_ids : List String)
    (n : Nat) (h1 : hex_ids ≠ []) (h2 : hex_ids.Nodup) (h3 : 0 < n)
    (h4 : ∀ s ∈ hex_ids, squote ∉ s.data) :
    ∃ rows : List DBRow,
      get_rows_by_hex_id db hex_ids n = some (some db.colnames, rows) ∧
      rows.Perm (db.rows.filter (fun r => decide (r.hex_id ∈ hex_ids))) := by
  have hok : ∀ b ∈ batchedList n hex_ids,
      run_query db b = some (select_rows db b) := by
    intro b hb
    refine run_query_quote_free db b ?_ ?_
    · exact batchedList_mem_ne_nil n h3 hex_ids.length hex_ids le_rfl b hb
    · intro s hs
      exact h4 s (batchedList_mem_subset n h3 hex_ids b hb s hs)
  refine ⟨((batchedList n hex_ids).map (select_rows db)).flatten, ?_, ?_⟩
  · cases hex_ids with
    | nil => exact absurd rfl h1
    | cons x xs =>
      show fetch_batches db (batchedList n (x :: xs)) none [] = _
      rw [batchedList_cons n x xs h3]
      rw [batchedList_cons n x xs h3] at hok
      have hB := hok _ (List.mem_cons_self ..)
      simp only [fetch_batches, hB]
      rw [fetch_batches_ok db _ _ db.colnames
        (fun b hb => hok b (List.mem_cons_of_mem _ hb))]
      simp
  · simpa using batched_select_perm_fuel db n h3 hex_ids.length hex_ids le_rfl h2

/-- Concrete instance of the quote-free batched-fetch property: the table
`db0` queried for its two duplicated ids with batch size 1 (two round
trips). -/
theorem c7_batched_fetch_quote_free_witness :
    ((["A", "C"] : List String) ≠ [] ∧ (["A", "C"] : List String).Nodup ∧
      0 < 1 ∧ ∀ s ∈ (["A", "C"] : List String), squote ∉ s.data) ∧
    ∃ rows : List DBRow,
      get_rows_by_hex_id db0 ["A", "C"] 1 = some (some db0.colnames, rows) ∧
      rows.Perm (db0.rows.filter
        (fun r => decide (r.hex_id ∈ (["A", "C"] : List String)))) :=
  ⟨⟨by decide, by decide, by decide, by decide⟩,
    c7_batched_fetch_quote_free db0 ["A", "C"] 1 (by decide) (by decide)
      (by decide) (by decide)⟩

/-- C7 counterexample: a nonempty distinct id list and positive batch
size on which the fetch does not return the rows whose `hex_id` is in the
requested list.  For the single requested id `a','b`, the concatenated
query text reads back as the two literals `a` and `b`, so the code
fetches both of the table's rows although no row's `hex_id` is in the
requested list; and for the id `a'b` the concatenated query text is
malformed and the fetch aborts instead of returning a row set. -/
theorem c7_batched_fetch_cex :
    ([tricky_id] : List String) ≠ [] ∧ ([tricky_id] : List String).Nodup ∧
    0 < 1 ∧
    get_rows_by_hex_id inj_db [tricky_id] 1
      = some (some inj_db.colnames, [⟨"a", 1⟩, ⟨"b", 2⟩]) ∧
    inj_db.rows.filter (fun r => decide (r.hex_id ∈ ([tricky_id] : List String)))
      = [] ∧
    ¬(([⟨"a", 1⟩, ⟨"b", 2⟩] : List DBRow).Perm
      (inj_db.rows.filter
        (fun r => decide (r.hex_id ∈ ([tricky_id] : List String))))) ∧
    get_rows_by_hex_id inj_db [inj_id] 1 = none := by
  have hb1 : batchedList 1 [tricky_id] = [[tricky_id]] := by
    rw [batchedList_cons 1 tricky_id [] (by norm_num)]
    simp [batchedList]
  have hb2 : batchedList 1 [inj_id] = [[inj_id]] := by
    rw [batchedList_cons 1 inj_id [] (by norm_num)]
    simp [batchedList]
  refine ⟨by decide, by decide, by decide, ?_, by decide, by decide, ?_⟩
  · show fetch_batches inj_db (batchedList 1 [tricky_id]) none [] = _
    rw [hb1]
    decide
  · show fetch_batches inj_db (batchedList 1 [inj_id]) none [] = none
    rw [hb2]
    decide

theorem exists_mem_enumFrom {α : Type} :
    ∀ (l : List α) (n : Nat) (x : α), x ∈ l → ∃ i, (i, x) ∈ l.enumFrom n := by
  intro l
  induction l with
  | nil => intro n x h; simp at h
  | cons a as ih =>
    intro n x h
    rcases List.mem_cons.mp h with h | h
    · subst h
      exact ⟨n, by simp [List.enumFrom]⟩
    · obtain ⟨i, hi⟩ := ih (n + 1) x h
      exact ⟨i, by simp [List.enumFrom, hi]⟩

theorem exists_mem_enum {α : Type} (l : List α) (x : α) (h : x ∈ l) :
    ∃ i, (i, x) ∈ l.enum := by
  simpa [List.enum] using exists_mem_enumFrom l 0 x h

theorem dedupScan_spec (hex : String) :
    ∀ (l : List (Nat × Row)) (best : Row),
      ((dedupScan hex l best best.geometry.area).2
          = (l.filter (fun p => !(py_truthy p.2.evi))).map (fun p => (hex, p.1))) ∧
      best.geometry.area ≤ (dedupScan hex l best best.geometry.area).1.geometry.area ∧
      (∀ p ∈ l, py_truthy p.2.evi = true →
          p.2.geometry.area
            ≤ (dedupScan hex l best best.geometry.area).1.geometry.area) ∧
      ((dedupScan hex l best best.geometry.area).1 = best ∨
        (py_truthy (dedupScan hex l best best.geometry.area).1.evi = true ∧
          (dedupScan hex l best best.geometry.area).1 ∈ l.map Prod.snd ∧
          best.geometry.area
            < (dedupScan hex l best best.geometry.area).1.geometry.area)) := by
  intro l
  induction l with
  | nil =>
    intro best
    simp [dedupScan]
  | cons p rest ih =>
    intro best
    obtain ⟨idx, other⟩ := p
    by_cases ht : py_truthy other.evi = true
    · by_cases harea : best.geometry.area < other.geometry.area
      · have hstep : dedupScan hex ((idx, other) :: rest) best best.geometry.area
            = dedupScan hex rest other other.geometry.area := by
          simp [dedupScan, ht, harea]
        obtain ⟨hnotes, hle, hall, hdisj⟩ := ih other
        rw [hstep]
        refine ⟨?_, ?_, ?_, ?_⟩
        · rw [hnotes]
          simp [List.filter_cons, ht]
        · exact le_trans (le_of_lt harea) hle
        · intro q hq hqt
          rcases List.mem_cons.mp hq with hq | hq
          · rw [hq]
            exact hle
          · exact hall q hq hqt
        · rcases hdisj with hfin | ⟨ht2, hmem, hlt⟩
          · right
            rw [hfin]
            exact ⟨ht, by simp, harea⟩
          · right
            refine ⟨ht2, ?_, lt_trans harea hlt⟩
            simp only [List.map_cons, List.mem_cons]
            exact Or.inr hmem
      · have hstep : dedupScan hex ((idx, other) :: rest) best best.geometry.area
            = dedupScan hex rest best best.geometry.area := by
          simp [dedupScan, ht, harea]
        obtain ⟨hnotes, hle, hall, hdisj⟩ := ih best
        rw [hstep]
        refine ⟨?_, hle, ?_, ?_⟩
        · rw [hnotes]
          simp [List.filter_cons, ht]
        · intro q hq hqt
          rcases List.mem_cons.mp hq with hq | hq
          · rw [hq]
            exact le_trans (le_of_not_lt harea) hle
          · exact hall q hq hqt
        · rcases hdisj with hfin | ⟨ht2, hmem, hlt⟩
          · exact Or.inl hfin
          · right
            refine ⟨ht2, ?_, hlt⟩
            simp only [List.map_cons, List.mem_cons]
            exact Or.inr hmem
    · have hf : py_truthy other.evi = false := by
        revert ht
        cases py_truthy other.evi <;> simp
      have hstep : dedupScan hex ((idx, other) :: rest) best best.geometry.area
          = ((dedupScan hex rest best best.geometry.area).1,
              (hex, idx) :: (dedupScan hex rest best best.geometry.area).2) := by
        simp [dedupScan, hf]
      obtain ⟨hnotes, hle, hall, hdisj⟩ := ih best
      rw [hstep]
      refine ⟨?_, hle, ?_, ?_⟩
      · simp only [List.filter_cons, hf, Bool.not_false, if_true, List.map_cons]
        rw [hnotes]
      · intro q hq hqt
        rcases List.mem_cons.mp hq with hq | hq
        · rw [hq] at hqt
          rw [hqt] at hf
          simp at hf
        · exact hall q hq hqt
      · rcases hdisj with hfin | ⟨ht2, hmem, hlt⟩
        · exact Or.inl hfin
        · right
          refine ⟨ht2, ?_, hlt⟩
          simp only [List.map_cons, List.mem_cons]
          exact Or.inr hmem

theorem dedupScan_fst (hex : String) :
    ∀ (l : List (Nat × Row)) (best : Row),
      (dedupScan hex l best best.geometry.area).1
        = scan_fold best (l.map Prod.snd) := by
  intro l
  induction l with
  | nil => intro best; simp [dedupScan, scan_fold]
  | cons p rest ih =>
    intro best
    obtain ⟨idx, other⟩ := p
    by_cases ht : py_truthy other.evi = true
    · by_cases harea : best.geometry.area < other.geometry.area
      · have h1 : dedupScan hex ((idx, other) :: rest) best best.geometry.area
            = dedupScan hex rest other other.geometry.area := by
          simp [dedupScan, ht, harea]
        have h2 : scan_fold best (((idx, other) :: rest).map Prod.snd)
            = scan_fold other (rest.map Prod.snd) := by
          simp [scan_fold, ht, harea]
        rw [h1, h2, ih other]
      · have h1 : dedupScan hex ((idx, other) :: rest) best best.geometry.area
            = dedupScan hex rest best best.geometry.area := by
          simp [dedupScan, ht, harea]
        have h2 : scan_fold best (((idx, other) :: rest).map Prod.snd)
            = scan_fold best (rest.map Prod.snd) := by
          simp [scan_fold, ht, harea]
        rw [h1, h2, ih best]
    · have hf : py_truthy other.evi = false := by
        revert ht
        cases py_truthy other.evi <;> simp
      have h1 : (dedupScan hex ((idx, other) :: rest) best best.geometry.area).1
          = (dedupScan hex rest best best.geometry.area).1 := by
        simp [dedupScan, hf]
      have h2 : scan_fold best (((idx, other) :: rest).map Prod.snd)
          = scan_fold best (rest.map Prod.snd) := by
        simp [scan_fold, hf]
      rw [h1, h2, ih best]

theorem scan_fold_split :
    ∀ (ms : List Row) (best : Row),
      ∃ l1 l2,
        best :: ms = l1 ++ scan_fold best ms :: l2 ∧
        (∀ x ∈ l1, py_truthy x.evi = true →
            x.geometry.area < (scan_fold best ms).geometry.area) ∧
        (∀ x ∈ ms, py_truthy x.evi = true →
            x.geometry.area ≤ (scan_fold best ms).geometry.area) ∧
        ((l1 = [] ∧ scan_fold best ms = best) ∨
          best.geometry.area < (scan_fold best ms).geometry.area) := by
  intro ms
  induction ms with
  | nil =>
    intro best
    exact ⟨[], [], rfl, by simp, by simp, Or.inl ⟨rfl, rfl⟩⟩
  | cons m0 ms ih =>
    intro best
    by_cases hc : py_truthy m0.evi = true ∧ best.geometry.area < m0.geometry.area
    · have hstep : scan_fold best (m0 :: ms) = scan_fold m0 ms := by
        simp [scan_fold, hc]
      obtain ⟨l1, l2, hsplit, hfirst, hmax, hdisj⟩ := ih m0
      rw [hstep]
      have hm0le : m0.geometry.area ≤ (scan_fold m0 ms).geometry.area := by
        rcases hdisj with ⟨-, he⟩ | hlt
        · rw [he]
        · exact le_of_lt hlt
      refine ⟨best :: l1, l2, by rw [List.cons_append, ← hsplit], ?_, ?_, ?_⟩
      · intro x hx hxt
        rcases List.mem_cons.mp hx with hx | hx
        · rw [hx]
          exact lt_of_lt_of_le hc.2 hm0le
        · exact hfirst x hx hxt
      · intro x hx hxt
        rcases List.mem_cons.mp hx with hx | hx
        · rw [hx]
          exact hm0le
        · exact hmax x hx hxt
      · exact Or.inr (lt_of_lt_of_le hc.2 hm0le)
    · have hstep : scan_fold best (m0 :: ms) = scan_fold best ms := by
        simp only [scan_fold]
        rw [if_neg hc]
      obtain ⟨l1, l2, hsplit, hfirst, hmax, hdisj⟩ := ih best
      rw [hstep]
      have hm0 : py_truthy m0.evi = true → m0.geometry.area ≤ best.geometry.area := by
        intro htm
        by_contra hgt
        exact hc ⟨htm, lt_of_not_le hgt⟩
      rcases hdisj with ⟨hl1, he⟩ | hlt
      · refine ⟨[], m0 :: ms, by rw [he]; simp, by simp, ?_, Or.inl ⟨rfl, he⟩⟩
        intro x hx hxt
        rcases List.mem_cons.mp hx with hx | hx
        · subst hx
          rw [he]
          exact hm0 hxt
        · exact hmax x hx hxt
      · cases l1 with
        | nil =>
          exfalso
          simp only [List.nil_append] at hsplit
          rw [List.cons.injEq] at hsplit
          rw [← hsplit.1] at hlt
          exact lt_irrefl _ hlt
        | cons b t =>
          rw [List.cons_append, List.cons.injEq] at hsplit
          obtain ⟨hb, hms⟩ := hsplit
          refine ⟨best :: m0 :: t, l2, ?_, ?_, ?_, Or.inr hlt⟩
          · rw [List.cons_append, List.cons_append, ← hms]
          · intro x hx hxt
            rcases List.mem_cons.mp hx with hx | hx
            · subst hx
              exact hlt
            · rcases List.mem_cons.mp hx with hx | hx
              · subst hx
                exact lt_of_le_of_lt (hm0 hxt) hlt
              · refine hfirst x ?_ hxt
                rw [← hb]
                exact List.mem_cons_of_mem _ hx
          · intro x hx hxt
            rcases List.mem_cons.mp hx with hx | hx
            · subst hx
              exact le_of_lt (lt_of_le_of_lt (hm0 hxt) hlt)
            · exact hmax x hx hxt

/-- C4 (amended): a duplicate group of exactly one member passes through
unchanged - the resolver returns the member itself, stored geometry
included, and emits no notification. -/
theorem c4_singleton_passthrough (cts : String → Geom) (pt : Geom → Geom)
    (r : Row) : deduplicate cts pt [r] = some (r, []) := by
  rfl

/-- C4 counterexample: for a concrete singleton group whose stored
geometry differs from the reprojected cell polygon of its hex id, the
resolver's output keeps the stored geometry, so its geometry is not the
reprojected cell boundary as the claim states. -/
theorem c4_singleton_cex :
    (deduplicate cell_poly bng_project [r_single]).map (fun p => p.1.geometry)
        = some r_single.geometry ∧
    r_single.geometry ≠ bng_project (cell_poly r_single.hex_id) ∧
    ¬((deduplicate cell_poly bng_project [r_single]).map (fun p => p.1.geometry)
        = some (bng_project (cell_poly r_single.hex_id))) := by
  decide

/-- C3 (amended): in a group of at least two members, exactly the
members whose `evi` is falsy under Python truthiness - null or the
number zero - are skipped, each emitting one `(group id, position)`
notification; every other member's stored area is compared, the final
candidate dominating all truthy members' areas and differing from the
first member only if it is itself truthy with strictly larger area. -/
theorem c3_null_skip_amended (cts : String → Geom) (pt : Geom → Geom)
    (r0 r1 : Row) (rest : List Row) :
    ∃ best,
      deduplicate cts pt (r0 :: r1 :: rest)
          = some ({ best with geometry := pt (cts r0.hex_id) },
              ((r0 :: r1 :: rest).enum.filter
                  (fun p => !(py_truthy p.2.evi))).map (fun p => (r0.hex_id, p.1))) ∧
      (∀ m ∈ r0 :: r1 :: rest, py_truthy m.evi = true →
          m.geometry.area ≤ best.geometry.area) ∧
      (best = r0 ∨
        (py_truthy best.evi = true ∧ best ∈ r0 :: r1 :: rest ∧
          r0.geometry.area < best.geometry.area)) := by
  obtain ⟨hnotes, hle, hall, hdisj⟩ :=
    dedupScan_spec r0.hex_id ((r0 :: r1 :: rest).enum) r0
  refine ⟨(dedupScan r0.hex_id ((r0 :: r1 :: rest).enum) r0
      r0.geometry.area).1, ?_, ?_, ?_⟩
  · simp only [deduplicate]
    rw [hnotes]
  · intro m hm hmt
    obtain ⟨i, hi⟩ := exists_mem_enum (r0 :: r1 :: rest) m hm
    exact hall (i, m) hi hmt
  · rcases hdisj with h | ⟨ht, hmem, hlt⟩
    · exact Or.inl h
    · right
      rw [List.enum_map_snd] at hmem
      exact ⟨ht, hmem, hlt⟩

/-- C3 counterexample: a two-member group whose second member has the
non-null quality value zero and the strictly largest area.  The claim
says such a member must be area-compared (becoming primary) and must not
be notified; the code skips it, notifies position 1, and keeps the first
member's attributes. -/
theorem c3_null_skip_cex :
    c3row2.evi ≠ none ∧
    c3row1.geometry.area < c3row2.geometry.area ∧
    (deduplicate cell_poly bng_project [c3row1, c3row2]).map (fun p => p.1.attrs)
        = some c3row1.attrs ∧
    (deduplicate cell_poly bng_project [c3row1, c3row2]).map (fun p => p.2)
        = some [("H", 1)] ∧
    ¬((deduplicate cell_poly bng_project [c3row1, c3row2]).map (fun p => p.1.attrs)
        = some c3row2.attrs) := by
  decide

/-- C6: in a group of at least two members, the initial primary
candidate is the first member unconditionally; when no later member with
a non-null `evi` has strictly larger stored area, the resolved record
copies the first member's non-geometry attributes while its geometry is
the reprojected cell polygon of the group's hex id. -/
theorem c6_first_member_default (cts : String → Geom) (pt : Geom → Geom)
    (r0 r1 : Row) (rest : List Row)
    (hH : ∀ m ∈ r1 :: rest, m.evi ≠ none →
        m.geometry.area ≤ r0.geometry.area) :
    deduplicate cts pt (r0 :: r1 :: rest)
      = some ({ r0 with geometry := pt (cts r0.hex_id) },
          ((r0 :: r1 :: rest).enum.filter
              (fun p => !(py_truthy p.2.evi))).map (fun p => (r0.hex_id, p.1))) := by
  obtain ⟨hnotes, hle, hall, hdisj⟩ :=
    dedupScan_spec r0.hex_id ((r0 :: r1 :: rest).enum) r0
  have hfin : (dedupScan r0.hex_id ((r0 :: r1 :: rest).enum) r0
      r0.geometry.area).1 = r0 := by
    rcases hdisj with h | ⟨ht, hmem, hlt⟩
    · exact h
    · exfalso
      rw [List.enum_map_snd] at hmem
      have hne : (dedupScan r0.hex_id ((r0 :: r1 :: rest).enum) r0
          r0.geometry.area).1.evi ≠ none := by
        intro hn
        rw [hn] at ht
        simp [py_truthy] at ht
      rcases List.mem_cons.mp hmem with hmem | hmem
      · rw [hmem] at hlt
        exact lt_irrefl _ hlt
      · exact absurd hlt (not_lt.mpr (hH _ hmem hne))
  simp only [deduplicate]
  rw [hnotes, hfin]

/-- Concrete instance of the first-member-default claim: the spec's
scenario C - member 1 has null `evi` and area 50, member 2 has `evi` 0.7
and area 30; the resolved record copies member 1's attributes and its
geometry is the reprojected cell polygon for `C`, not either stored
geometry. -/
theorem c6_first_member_default_witness :
    (∀ m ∈ [c6row2], m.evi ≠ none →
        m.geometry.area ≤ c6row1.geometry.area) ∧
    deduplicate cell_poly bng_project [c6row1, c6row2]
      = some ({ c6row1 with geometry := bng_project (cell_poly c6row1.hex_id) },
          (([c6row1, c6row2]).enum.filter
              (fun p => !(py_truthy p.2.evi))).map (fun p => (c6row1.hex_id, p.1))) :=
  ⟨by decide, c6_first_member_default cell_poly bng_project c6row1 c6row2 [] (by decide)⟩

/-- C5 (amended): ties never replace the candidate - the selected member
is the first one attaining the running maximum.  Skipping is by Python
truthiness, so the selection is first-max among the truthy members with
the first member as unconditional default: the group splits as
`l1 ++ m :: l2` with every truthy member of `l1` strictly below `m` and
every truthy member of the group at most `m`.  The spec's scenario D
(areas 10, 40, 40) resolves to member 2's attributes. -/
theorem c5_first_max_tie :
    ((deduplicate cell_poly bng_project [d1, d2, d3]).map (fun p => p.1.attrs)
        = some d2.attrs) ∧
    ∀ (cts : String → Geom) (pt : Geom → Geom) (r0 r1 : Row) (rest : List Row),
      ∃ l1 m l2,
        r0 :: r1 :: rest = l1 ++ m :: l2 ∧
        (∀ x ∈ l1, py_truthy x.evi = true →
            x.geometry.area < m.geometry.area) ∧
        (∀ x ∈ r0 :: r1 :: rest, py_truthy x.evi = true →
            x.geometry.area ≤ m.geometry.area) ∧
        ∃ notes, deduplicate cts pt (r0 :: r1 :: rest)
            = some ({ m with geometry := pt (cts r0.hex_id) }, notes) := by
  constructor
  · decide
  · intro cts pt r0 r1 rest
    have hfst := dedupScan_fst r0.hex_id ((r0 :: r1 :: rest).enum) r0
    rw [List.enum_map_snd] at hfst
    have hself : scan_fold r0 (r0 :: r1 :: rest) = scan_fold r0 (r1 :: rest) := by
      simp [scan_fold]
    obtain ⟨l1, l2, hsplit, hfirst, hmax, hdisj⟩ := scan_fold_split (r1 :: rest) r0
    refine ⟨l1, scan_fold r0 (r1 :: rest), l2, hsplit, hfirst, ?_, ?_⟩
    · intro x hx hxt
      rcases List.mem_cons.mp hx with hx | hx
      · subst hx
        rcases hdisj with ⟨-, he⟩ | hlt
        · rw [he]
        · exact le_of_lt hlt
      · exact hmax x hx hxt
    · refine ⟨(dedupScan r0.hex_id ((r0 :: r1 :: rest).enum) r0
          r0.geometry.area).2, ?_⟩
      simp only [deduplicate]
      rw [hfst.trans hself]

/-- C5 counterexample: a two-member group in which both members bear a
non-null `evi` and the second member is the unique first attainer of the
maximum area, yet the code - which skips the falsy value zero - keeps
the first member's attributes. -/
theorem c5_first_max_cex :
    e2.evi ≠ none ∧
    (∀ x ∈ [e1, e2], x.geometry.area ≤ e2.geometry.area) ∧
    e1.geometry.area < e2.geometry.area ∧
    (deduplicate cell_poly bng_project [e1, e2]).map (fun p => p.1.attrs)
        = some e1.attrs ∧
    ¬((deduplicate cell_poly bng_project [e1, e2]).map (fun p => p.1.attrs)
        = some e2.attrs) := by
  decide

theorem digit_char_spec :
    ∀ d : Fin 10,
      (digit_char d.val).toNat = 48 + d.val ∧
      is_digit_char (digit_char d.val) = true ∧
      digit_char d.val ≠ ',' ∧ digit_char d.val ≠ '\n' ∧
      digit_char d.val ≠ '\r' ∧ digit_char d.val ≠ '"' ∧
      digit_char d.val ≠ '-' ∧ digit_char d.val ≠ '+' := by
  decide

theorem nat_to_chars_aux_eq :
    ∀ (fuel n : Nat) (acc : List Char), n ≤ fuel →
      nat_to_chars_aux fuel n acc
        = ((Nat.digits 10 n).reverse).map digit_char ++ acc := by
  intro fuel
  induction fuel with
  | zero =>
    intro n acc h
    have hn : n = 0 := Nat.le_zero.mp h
    subst hn
    simp [nat_to_chars_aux]
  | succ fuel ih =>
    intro n acc h
    by_cases hn : n = 0
    · subst hn
      simp [nat_to_chars_aux]
    · simp only [nat_to_chars_aux, if_neg hn]
      have hdiv : n / 10 ≤ fuel := by
        have : n / 10 < n := Nat.div_lt_self (Nat.pos_of_ne_zero hn) (by norm_num)
        omega
      rw [ih (n / 10) _ hdiv]
      rw [Nat.digits_def' (by norm_num : (1 : ℕ) < 10) (Nat.pos_of_ne_zero hn)]
      simp [List.append_assoc]

theorem nat_to_chars_eq_digits (n : Nat) (hn : n ≠ 0) :
    nat_to_chars n = ((Nat.digits 10 n).reverse).map digit_char := by
  simp only [nat_to_chars, if_neg hn]
  rw [nat_to_chars_aux_eq n n [] le_rfl]
  simp

theorem nat_to_chars_digits (n : Nat) :
    ∀ c ∈ nat_to_chars n, ∃ d : Fin 10, c = digit_char d.val := by
  intro c hc
  by_cases hn : n = 0
  · subst hn
    simp [nat_to_chars] at hc
    exact ⟨⟨0, by norm_num⟩, by rw [hc]; decide⟩
  · rw [nat_to_chars_eq_digits n hn] at hc
    rw [List.mem_map] at hc
    obtain ⟨d, hd, hdc⟩ := hc
    have hlt : d < 10 :=
      Nat.digits_lt_base (by norm_num) (List.mem_reverse.mp hd)
    exact ⟨⟨d, hlt⟩, hdc.symm⟩

theorem nat_to_chars_ne_nil (n : Nat) : nat_to_chars n ≠ [] := by
  by_cases hn : n = 0
  · subst hn
    simp [nat_to_chars]
  · rw [nat_to_chars_eq_digits n hn]
    have hdig : Nat.digits 10 n ≠ [] := Nat.digits_ne_nil_iff_ne_zero.mpr hn
    intro hcontr
    apply hdig
    have hlen := congrArg List.length hcontr
    simp at hlen
    exact hlen

theorem foldl_digit_chars :
    ∀ (L : List Nat) (a : Nat), (∀ d ∈ L, d < 10) →
      (L.map digit_char).foldl (fun a c => a * 10 + (c.toNat - 48)) a
        = a * 10 ^ L.length + Nat.ofDigits 10 L.reverse := by
  intro L
  induction L with
  | nil =>
    intro a _
    simp [Nat.ofDigits_nil]
  | cons d ds ih =>
    intro a hL
    have hd : d < 10 := hL d (List.mem_cons_self ..)
    have htoNat : (digit_char d).toNat = 48 + d := (digit_char_spec ⟨d, hd⟩).1
    simp only [List.map_cons, List.foldl_cons, htoNat]
    have hsub : a * 10 + (48 + d - 48) = a * 10 + d := by omega
    rw [hsub]
    rw [ih (a * 10 + d) (fun x hx => hL x (List.mem_cons_of_mem _ hx))]
    rw [List.reverse_cons, Nat.ofDigits_append]
    simp only [List.length_cons, List.length_reverse, Nat.ofDigits_cons,
      Nat.ofDigits_nil, pow_succ]
    ring

theorem digits_val_nat_to_chars (n : Nat) :
    digits_val (nat_to_chars n) = some n := by
  by_cases hn : n = 0
  · subst hn
    decide
  · have hall : (nat_to_chars n).all is_digit_char = true := by
      rw [List.all_eq_true]
      intro c hc
      obtain ⟨d, hd⟩ := nat_to_chars_digits n c hc
      rw [hd]
      exact (digit_char_spec d).2.1
    rw [digits_val, if_neg (nat_to_chars_ne_nil n), if_pos hall]
    congr 1
    rw [nat_to_chars_eq_digits n hn]
    rw [foldl_digit_chars ((Nat.digits 10 n).reverse) 0
      (fun d hd => Nat.digits_lt_base (by norm_num) (List.mem_reverse.mp hd))]
    simp [Nat.ofDigits_digits]

theorem py_int_nat (n : Nat) (hn : n ≠ 0) :
    py_int (String.mk (nat_to_chars n)) = some (n : Int) := by
  obtain ⟨c, cs, hcons⟩ : ∃ c cs, nat_to_chars n = c :: cs := by
    cases h : nat_to_chars n with
    | nil => exact absurd h (nat_to_chars_ne_nil n)
    | cons c cs => exact ⟨c, cs, rfl⟩
  obtain ⟨d, hdc⟩ := nat_to_chars_digits n c (by rw [hcons]; exact List.mem_cons_self ..)
  have hne1 : c ≠ '-' := by rw [hdc]; exact (digit_char_spec d).2.2.2.2.2.2.1
  have hne2 : c ≠ '+' := by rw [hdc]; exact (digit_char_spec d).2.2.2.2.2.2.2
  have hdv : digits_val (c :: cs) = some n := by
    rw [← hcons]
    exact digits_val_nat_to_chars n
  rw [hcons]
  simp [py_int, hne1, hne2, hdv]

theorem py_int_pos (b : Int) (hb : 0 < b) :
    py_int (String.mk (int_to_chars b)) = some b := by
  have hneg : ¬b < 0 := by omega
  simp only [int_to_chars, if_neg hneg]
  rw [py_int_nat b.toNat (by omega)]
  congr 1
  omega

theorem int_to_chars_good (b : Int) (hb : 0 < b) :
    int_to_chars b ≠ [] ∧
    ∀ c ∈ int_to_chars b, c ≠ ',' ∧ c ≠ '\n' ∧ c ≠ '\r' ∧ c ≠ '"' := by
  have hneg : ¬b < 0 := by omega
  constructor
  · simp only [int_to_chars, if_neg hneg]
    exact nat_to_chars_ne_nil _
  · intro c hc
    simp only [int_to_chars, if_neg hneg] at hc
    obtain ⟨d, hd⟩ := nat_to_chars_digits _ c hc
    rw [hd]
    have hspec := digit_char_spec d
    exact ⟨hspec.2.2.1, hspec.2.2.2.1, hspec.2.2.2.2.1, hspec.2.2.2.2.2.1⟩

theorem univ_newlines_aux_id :
    ∀ l : List Char, (∀ c ∈ l, c ≠ '\r') → univ_newlines_aux false l = l := by
  intro l
  induction l with
  | nil => intro _; rfl
  | cons c cs ih =>
    intro h
    have hc : c ≠ '\r' := h c (List.mem_cons_self ..)
    have hrest := ih (fun x hx => h x (List.mem_cons_of_mem _ hx))
    by_cases hnl : c = '\n'
    · subst hnl
      simp [univ_newlines_aux, hc, hrest]
    · simp [univ_newlines_aux, hc, hnl, hrest]

theorem univ_newlines_id (l : List Char) (h : ∀ c ∈ l, c ≠ '\r') :
    univ_newlines l = l := by
  rw [univ_newlines]
  exact univ_newlines_aux_id l h

theorem csv_run_fld_consume :
    ∀ (l cs f : List Char) (row : List String) (rows : List (List String)),
      (∀ c ∈ l, c ≠ ',' ∧ c ≠ '\n') →
      csv_run (l ++ cs) .fld f row rows = csv_run cs .fld (f ++ l) row rows := by
  intro l
  induction l with
  | nil => intro cs f row rows _; simp
  | cons c l ih =>
    intro cs f row rows h
    have hc := h c (List.mem_cons_self ..)
    simp only [List.cons_append, csv_run, if_neg hc.2, if_neg hc.1,
      List.append_eq]
    rw [ih cs (f ++ [c]) row rows (fun x hx => h x (List.mem_cons_of_mem _ hx))]
    simp

theorem csv_run_record (t : String) (num cs : List Char)
    (rows : List (List String))
    (ht : good_tok t)
    (hnum1 : num ≠ [])
    (hnum2 : ∀ c ∈ num, c ≠ ',' ∧ c ≠ '\n' ∧ c ≠ '\"') :
    csv_run (t.data ++ (',' :: (num ++ ('\n' :: cs)))) .sr [] [] rows
      = csv_run cs .sr [] [] (rows ++ [[t, String.mk num]]) := by
  have hca : ¬(',' : Char) = '\n' := by decide
  have hcb : ¬(',' : Char) = '\"' := by decide
  obtain ⟨d, ds, hnum⟩ : ∃ d ds, num = d :: ds := by
    cases hx : num with
    | nil => exact absurd hx hnum1
    | cons d ds => exact ⟨d, ds, rfl⟩
  obtain ⟨hgood, hhead⟩ := ht
  have hd := hnum2 d (by rw [hnum]; exact List.mem_cons_self ..)
  have hds : ∀ x ∈ ds, x ≠ ',' ∧ x ≠ '\n' := fun x hx =>
    ⟨(hnum2 x (by rw [hnum]; exact List.mem_cons_of_mem _ hx)).1,
      (hnum2 x (by rw [hnum]; exact List.mem_cons_of_mem _ hx)).2.1⟩
  have hnumrun : ∀ rowacc : List String,
      csv_run (num ++ ('\n' :: cs)) .sf [] rowacc rows
        = csv_run cs .sr [] [] (rows ++ [rowacc ++ [String.mk num]]) := by
    intro rowacc
    rw [hnum]
    have e1 : csv_run ((d :: ds) ++ ('\n' :: cs)) .sf [] rowacc rows
        = csv_run (ds ++ ('\n' :: cs)) .fld [d] rowacc rows := by
      simp [csv_run, hd.1, hd.2.1, hd.2.2]
    rw [e1, csv_run_fld_consume ds ('\n' :: cs) [d] rowacc rows hds]
    have e2 : csv_run ('\n' :: cs) .fld ([d] ++ ds) rowacc rows
        = csv_run cs .sr [] [] (rows ++ [rowacc ++ [String.mk ([d] ++ ds)]]) := by
      simp [csv_run]
    rw [e2]
    simp
  cases t with
  | mk tdata =>
    cases tdata with
    | nil =>
      rw [List.nil_append]
      have e3 : csv_run (',' :: (num ++ ('\n' :: cs))) .sr [] [] rows
          = csv_run (num ++ ('\n' :: cs)) .sf [] [""] rows := by
        simp [csv_run, hca, hcb]
      rw [e3, hnumrun [""]]
      rfl
    | cons c0 cts =>
      have hc0 := hgood c0 (List.mem_cons_self ..)
      have hq : c0 ≠ '\"' := by
        intro hcontr
        apply hhead
        show some c0 = some '\"'
        rw [hcontr]
      have hcts : ∀ x ∈ cts, x ≠ ',' ∧ x ≠ '\n' := fun x hx =>
        ⟨(hgood x (List.mem_cons_of_mem _ hx)).1,
          (hgood x (List.mem_cons_of_mem _ hx)).2.1⟩
      rw [List.cons_append]
      have e4 : csv_run (c0 :: (cts ++ (',' :: (num ++ ('\n' :: cs))))) .sr [] [] rows
          = csv_run (cts ++ (',' :: (num ++ ('\n' :: cs)))) .fld [c0] [] rows := by
        simp [csv_run, hc0.1, hc0.2.1, hq]
      rw [e4, csv_run_fld_consume cts (',' :: (num ++ ('\n' :: cs))) [c0] [] rows hcts]
      have e5 : csv_run (',' :: (num ++ ('\n' :: cs))) .fld ([c0] ++ cts) [] rows
          = csv_run (num ++ ('\n' :: cs)) .sf [] [String.mk ([c0] ++ cts)] rows := by
        simp [csv_run, hca]
      rw [e5, hnumrun [String.mk ([c0] ++ cts)]]
      rfl

theorem foldl_append_eq_flatMap {α β : Type} (f : α → List β) :
    ∀ (l : List α) (acc : List β),
      l.foldl (fun acc x => acc ++ f x) acc = acc ++ l.flatMap f := by
  intro l
  induction l with
  | nil => intro acc; simp
  | cons x xs ih =>
    intro acc
    simp only [List.foldl_cons, List.flatMap_cons]
    rw [ih]
    simp [List.append_assoc]

theorem write_pairs_chars (items : List (String × Int)) :
    (write_pairs_csv items).data
      = items.flatMap (fun p => p.1.data ++ [','] ++ int_to_chars p.2 ++ ['\n']) := by
  simp only [write_pairs_csv]
  rw [foldl_append_eq_flatMap
    (fun p : String × Int => p.1.data ++ [','] ++ int_to_chars p.2 ++ ['\n'])]
  simp

theorem csv_run_entries :
    ∀ (entries : List (String × Int)) (rows : List (List String)),
      (∀ p ∈ entries, good_tok p.1 ∧ 0 < p.2) →
      csv_run (entries.flatMap
          (fun p => p.1.data ++ [','] ++ int_to_chars p.2 ++ ['\n'])) .sr [] [] rows
        = rows ++ entries.map (fun p => [p.1, String.mk (int_to_chars p.2)]) := by
  intro entries
  induction entries with
  | nil =>
    intro rows _
    simp [csv_run]
  | cons e es ih =>
    intro rows h
    obtain ⟨hgood, hpos⟩ := h e (List.mem_cons_self ..)
    obtain ⟨hn1, hn2⟩ := int_to_chars_good e.2 hpos
    simp only [List.flatMap_cons]
    have hshape : (e.1.data ++ [','] ++ int_to_chars e.2 ++ ['\n'])
          ++ es.flatMap (fun p => p.1.data ++ [','] ++ int_to_chars p.2 ++ ['\n'])
        = e.1.data ++ (',' :: (int_to_chars e.2 ++ ('\n' ::
            es.flatMap (fun p => p.1.data ++ [','] ++ int_to_chars p.2 ++ ['\n'])))) := by
      simp [List.append_assoc]
    rw [hshape]
    rw [csv_run_record e.1 (int_to_chars e.2) _ rows ⟨hgood.1, hgood.2⟩ hn1
      (fun c hc => ⟨(hn2 c hc).1, (hn2 c hc).2.1, (hn2 c hc).2.2.2⟩)]
    rw [ih _ (fun p hp => h p (List.mem_cons_of_mem _ hp))]
    simp

theorem rows_to_pairs_map :
    ∀ entries : List (String × Int), (∀ p ∈ entries, 0 < p.2) →
      rows_to_pairs (entries.map (fun p => [p.1, String.mk (int_to_chars p.2)]))
        = some entries := by
  intro entries
  induction entries with
  | nil => intro _; rfl
  | cons e es ih =>
    intro h
    have hpos := h e (List.mem_cons_self ..)
    simp only [List.map_cons, rows_to_pairs, row_to_pair]
    rw [py_int_pos e.2 hpos]
    rw [ih (fun p hp => h p (List.mem_cons_of_mem _ hp))]
    rfl

/-- C2: the persisted duplicate-id artifact round-trips exactly - for
every sequence of `(token, positive count)` pairs whose tokens contain no
comma, no newline, no carriage return and do not start with a double
quote, reading back the written file reproduces the same pairs in order,
counts parsed as integers and tokens byte-for-byte. -/
theorem c2_roundtrip (entries : List (String × Int))
    (h : ∀ p ∈ entries, good_tok p.1 ∧ 0 < p.2) :
    read_pairs_csv (write_pairs_csv entries) = some entries := by
  have hnor : ∀ c ∈ (write_pairs_csv entries).data, c ≠ '\r' := by
    rw [write_pairs_chars]
    intro c hc
    rw [List.mem_flatMap] at hc
    obtain ⟨p, hp, hcp⟩ := hc
    obtain ⟨hgood, hpos⟩ := h p hp
    simp only [List.mem_append, List.mem_singleton] at hcp
    rcases hcp with ((hc1 | hc2) | hc3) | hc4
    · exact (hgood.1 c hc1).2.2
    · rw [hc2]; decide
    · exact ((int_to_chars_good p.2 hpos).2 c hc3).2.2.1
    · rw [hc4]; decide
  rw [read_pairs_csv]
  rw [univ_newlines_id _ hnor]
  rw [write_pairs_chars]
  rw [csv_run_entries entries [] h]
  simp only [List.nil_append]
  exact rows_to_pairs_map entries (fun p hp => (h p hp).2)

/-- Concrete instance of the round trip on `c2_entries`. -/
theorem c2_roundtrip_witness :
    (∀ p ∈ c2_entries, good_tok p.1 ∧ 0 < p.2) ∧
    read_pairs_csv (write_pairs_csv c2_entries) = some c2_entries :=
  ⟨by decide, c2_roundtrip c2_entries (by decide)⟩

/-- C2 counterexample: the comma-free token `"x"` (double quotes
included) is written verbatim, but `csv.reader` applies quote
interpretation on the way back and returns the token `x`, so the read
pairs differ from the written ones. -/
theorem c2_roundtrip_cex :
    (∀ c ∈ c2_bad_tok.data, c ≠ ',') ∧ (0 : Int) < 2 ∧
    read_pairs_csv (write_pairs_csv [(c2_bad_tok, 2)]) = some [("x", 2)] ∧
    ¬(read_pairs_csv (write_pairs_csv [(c2_bad_tok, 2)])
        = some [(c2_bad_tok, 2)]) := by
  decide
